import Mathlib

/-! Shallow embedding of the adaptive hybrid quantum hash search code base
(`adaptive_hash/qsearch`): the hash function, the classical preprocessor,
the circuit builders (as explicit gate lists), the counting metrics, the
orchestrator's derived quantities, and the input-text generator.  The
definitions mirror the Python source; the theorems settle the
specification claims about them. -/

namespace AdaptiveHash

/-- Value of a big-endian bit string, as computed by Python `int(s, 2)`. -/
def bitsToNat (bs : List Bool) : Nat :=
  bs.foldl (fun a b => 2 * a + (if b then 1 else 0)) 0

/-- Big-endian binary digits of `n` with at least one digit, as Python
`format(n, 'b')` (so `0` is the single digit `0`). -/
def natBits (n : Nat) : List Bool :=
  (Nat.toDigits 2 n).map (fun c => c = '1')

/-- Python `format(i, f'0{w}b')`: big-endian binary representation of `i`,
left-padded with zeros to width `w` (never truncated below the minimal
representation). -/
def pyBinFormat (w i : Nat) : List Bool :=
  List.replicate (w - (natBits i).length) false ++ natBits i

/-- Python list subscription `l[i]` for a possibly negative index: a
non-negative index counts from the front, a negative index counts from the
back (`l[-1]` is the last element); out of range on both sides is an
`IndexError`, modelled as `none`. -/
def pyListGet (l : List Nat) (i : Int) : Option Nat :=
  if 0 ≤ i then l.get? i.toNat
  else if 0 ≤ i + l.length then l.get? (i + l.length).toNat
  else none

/-- The fixed prime table of `hashing.py`. -/
def primes : List Nat := [17, 19, 23, 29, 31, 37, 41, 43, 47]

/-- Source `get_prime`: returns `primes[prime_index - 1]` with Python list
indexing semantics (`none` models the `IndexError`). -/
def get_prime (prime_index : Int) : Option Nat :=
  pyListGet primes (prime_index - 1)

/-- Python `int.from_bytes(s, 'big')` on the byte list of a string. -/
def bytesToNat (s : List Nat) : Nat :=
  s.foldl (fun a b => 256 * a + b) 0

/-- Body of source `make_hash` once the prime `p` is fetched:
`(r * p) % (2 ** hash_bits)` on the big-endian byte value `r`. -/
def make_hash_with (p : Nat) (s : List Nat) (hash_bits : Nat) : Nat :=
  (bytesToNat s * p) % 2 ^ hash_bits

/-- Source `make_hash`: fetches the prime (which can fail) and hashes the
substring, given as its UTF-8 byte list. -/
def make_hash (s : List Nat) (hash_bits : Nat) (prime_index : Int) : Option Nat :=
  (get_prime prime_index).map (fun p => make_hash_with p s hash_bits)

/-- Source `compare_hash`: digests of the two strings are equal. -/
def compare_hash (s t : List Nat) (hash_bits : Nat) (prime_index : Int) : Option Bool :=
  (get_prime prime_index).map
    (fun p => make_hash_with p s hash_bits == make_hash_with p t hash_bits)

/-- Fuel-driven ceiling base-2 logarithm, structurally recursive so that it
evaluates inside the kernel; with fuel at least `n` it agrees with
`Nat.clog 2 n` (proved below). -/
def ceilLog2Aux : Nat → Nat → Nat
  | 0, _ => 0
  | fuel + 1, n => if n ≤ 1 then 0 else ceilLog2Aux fuel ((n + 1) / 2) + 1

/-- Source `compute_n_qubits`: `ceil(log2 n)` (exact, where the source uses
floating-point `math.ceil(math.log2 ...)`). -/
def compute_n_qubits (n_substr : Nat) : Nat :=
  ceilLog2Aux n_substr n_substr

/-- The sliding window of length `L` at position `i`: `text[i:i+L]`. -/
def window (text : List Nat) (L i : Nat) : List Nat :=
  (text.drop i).take L

/-- The `valid_states` list built by the preprocessing loop: for each window
position `i` in order, one entry `format(i, f'0{n_qubits}b')` is appended per
target whose digest equals the window's digest (the inner `for` loop of the
source has no `break`). -/
def validStatesOf (p hash_bits : Nat) (text : List Nat) (svs : List (List Nat))
    (L N n_qubits : Nat) : List (List Bool) :=
  ((List.range N).map (fun i =>
    (svs.filter (fun sv =>
      make_hash_with p (window text L i) hash_bits =
        make_hash_with p sv hash_bits)).map
      (fun _ => pyBinFormat n_qubits i))).flatten

/-- Source `classical_preprocessing`, on byte lists.  Failure (`none`) models
the Python exceptions: `search_values[0]` on an empty list, the
`math.log2` domain error when `n_substr ≤ 0`, and the prime-table
`IndexError` raised by the first `make_hash` call of the loop (which always
runs, since `n_substr ≥ 1` at that point).  Returns
`(valid_states, n_substr, n_qubits, substrings, targets)`. -/
def classical_preprocessing (input_text : List Nat) (search_values : List (List Nat))
    (hash_bits : Nat) (prime_index : Int) :
    Option (List (List Bool) × Int × Nat × List (List Bool) × List (List Bool)) :=
  match search_values with
  | [] => none
  | sv0 :: _ =>
    let L := sv0.length
    let n_substr : Int := (input_text.length : Int) - L + 1
    if n_substr ≤ 0 then none
    else
      let N := n_substr.toNat
      let n_qubits := compute_n_qubits N
      match get_prime prime_index with
      | none => none
      | some p =>
        let substrings := (List.range N).map (fun i =>
          pyBinFormat hash_bits (make_hash_with p (window input_text L i) hash_bits))
        let targets := (List.range N).filterMap (fun i =>
          if window input_text L i ∈ search_values then
            some (pyBinFormat hash_bits (make_hash_with p (window input_text L i) hash_bits))
          else none)
        some (validStatesOf p hash_bits input_text search_values L N n_qubits,
          n_substr, n_qubits, substrings, targets)

/-- Position count asserted by claim C2 (spec side of the comparison): the
number of window positions whose digest equals the digest of at least one
target, each position counted once. -/
def matchingPositionCount (p hash_bits : Nat) (text : List Nat) (svs : List (List Nat))
    (L N : Nat) : Nat :=
  ((List.range N).filter (fun i => svs.any (fun sv =>
    make_hash_with p (window text L i) hash_bits ==
      make_hash_with p sv hash_bits))).length

/-! Circuit builders of `circuits.py`, embedded as explicit gate lists over
the index register.  `mcx cs t` is the multi-controlled X with control
qubits `cs` and target `t`; `measure q c` records the terminal measurement
of qubit `q` into classical bit `c`. -/

/-- Gate alphabet of the index-register circuits (`create_hashed_oracle`,
`diffuser`, `grover_operator`, `grover_basic_search_circuit`). -/
inductive QGate where
  | x (q : Nat)
  | h (q : Nat)
  | mcx (cs : List Nat) (t : Nat)
  | measure (q c : Nat)
  deriving DecidableEq, Repr

/-- The X gates of the oracle sandwich for one marked bit string: the source
iterates `enumerate(reversed(bitstring))` and applies `x(i)` where the bit
is `'0'`. -/
def xOnZeros (bitstring : List Bool) : List QGate :=
  bitstring.reverse.enum.filterMap
    (fun p => if p.2 then none else some (QGate.x p.1))

/-- Source `create_hashed_oracle`: for each valid bit string, an
invert-on-zeros sandwich around the H–MCX–H multi-controlled phase flip on
qubit `n_qubits - 1`. -/
def create_hashed_oracle (n_qubits : Nat) (valid_states : List (List Bool)) : List QGate :=
  (valid_states.map (fun bitstring =>
    xOnZeros bitstring ++
    [QGate.h (n_qubits - 1),
     QGate.mcx (List.range (n_qubits - 1)) (n_qubits - 1),
     QGate.h (n_qubits - 1)] ++
    xOnZeros bitstring)).flatten

/-- Source `diffuser`: H on all qubits, X on all qubits, the H–MCX–H phase
flip on the last qubit, X on all qubits, H on all qubits. -/
def diffuser (n_qubits : Nat) : List QGate :=
  (List.range n_qubits).map QGate.h ++
  (List.range n_qubits).map QGate.x ++
  [QGate.h (n_qubits - 1),
   QGate.mcx (List.range (n_qubits - 1)) (n_qubits - 1),
   QGate.h (n_qubits - 1)] ++
  (List.range n_qubits).map QGate.x ++
  (List.range n_qubits).map QGate.h

/-- Source `grover_operator`: `diff_op.compose(oracle)`.  Qiskit's
`self.compose(other)` appends `other` after `self`, so the resulting gate
sequence is the diffuser's gates followed by the oracle's gates. -/
def grover_operator (n_qubits : Nat) (valid_states : List (List Bool)) : List QGate :=
  diffuser n_qubits ++ create_hashed_oracle n_qubits valid_states

/-- Per-iteration body of `grover_basic_search_circuit`: the loop appends
the oracle and then the diffuser. -/
def grover_basic_iteration (n_qubits : Nat) (valid_states : List (List Bool)) : List QGate :=
  create_hashed_oracle n_qubits valid_states ++ diffuser n_qubits

/-- Source `grover_basic_search_circuit` as a flat gate sequence: H on every
qubit, `iterations` copies of oracle-then-diffuser, and the terminal
measurements. -/
def grover_basic_search_circuit (n_qubits : Nat) (valid_states : List (List Bool))
    (iterations : Nat) : List QGate :=
  (List.range n_qubits).map QGate.h ++
  (List.replicate iterations (grover_basic_iteration n_qubits valid_states)).flatten ++
  (List.range n_qubits).map (fun q => QGate.measure q q)

/-! The associative-array loader of `circuits.py` (`load_array` /
`unload_array`).  Its gates act on the index register (X gates) and the
value register (multi-controlled X targeting a value qubit, controlled on
every index qubit); all of them are classical permutation gates, so the
semantics is classical state passing on basis states. -/

/-- Gate alphabet of the loader: `xIdx k` is X on index qubit `k`; `mcxVal v`
is the MCX with all index qubits as controls and value qubit `v` as
target. -/
inductive LGate where
  | xIdx (k : Nat)
  | mcxVal (v : Nat)
  deriving DecidableEq, Repr

/-- Basis state of the index and value registers. -/
@[ext]
structure LState where
  idx : Nat → Bool
  val : Nat → Bool

/-- Pointwise flip of an index assignment on the qubits listed in `S`. -/
def flipOn (S : List Nat) (f : Nat → Bool) : Nat → Bool :=
  fun k => if k ∈ S then !f k else f k

/-- Action of one loader gate on a basis state, for an index register of
`num_idx` qubits. -/
def applyLGate (num_idx : Nat) (s : LState) : LGate → LState
  | .xIdx k => { s with idx := Function.update s.idx k (!s.idx k) }
  | .mcxVal v =>
      if (List.range num_idx).all s.idx then
        { s with val := Function.update s.val v (!s.val v) }
      else s

/-- Action of a loader gate sequence on a basis state. -/
def execLGates (num_idx : Nat) (gs : List LGate) (s : LState) : LState :=
  gs.foldl (applyLGate num_idx) s

/-- Index qubits flipped around the MCX of entry `i`: the source enumerates
`index_bin = format(i, f"0{num_idx}b")` and applies X at each position
holding a `'0'`. -/
def idxFlips (num_idx i : Nat) : List Nat :=
  ((pyBinFormat num_idx i).enum.filter (fun p => !p.2)).map Prod.fst

/-- One emitted block of `load_array` (and of `unload_array`): flip the
zero-bits of the index pattern, apply the MCX onto value qubit `v`, flip
them back.  The X gates of the closing flip repeat the opening flip in the
same order. -/
def loadBlock (num_idx i v : Nat) : List LGate :=
  (idxFlips num_idx i).map LGate.xIdx ++ [LGate.mcxVal v] ++
    (idxFlips num_idx i).map LGate.xIdx

/-- Blocks emitted by `load_array` for one array entry: the source iterates
`enumerate(reversed(val_bin))` and emits a block per `'1'` bit. -/
def entryBlocks (num_idx i : Nat) (val_bin : List Bool) : List (List LGate) :=
  val_bin.reverse.enum.filterMap
    (fun p => if p.2 then some (loadBlock num_idx i p.1) else none)

/-- Block list of `load_array` over the whole array, in emission order. -/
def loadBlocks (num_idx : Nat) (array : List (List Bool)) : List (List LGate) :=
  (array.enum.map (fun p => entryBlocks num_idx p.1 p.2)).flatten

/-- Source `load_array`, as its emitted gate sequence. -/
def load_array (num_idx : Nat) (array : List (List Bool)) : List LGate :=
  (loadBlocks num_idx array).flatten

/-- Blocks emitted by `unload_array` for one array entry: the source iterates
`reversed(list(enumerate(reversed(val_bin))))`, so the per-entry blocks come
in reverse order while each block itself is emitted forwards. -/
def entryBlocksRev (num_idx i : Nat) (val_bin : List Bool) : List (List LGate) :=
  val_bin.reverse.enum.reverse.filterMap
    (fun p => if p.2 then some (loadBlock num_idx i p.1) else none)

/-- Source `unload_array`, as its emitted gate sequence: entries are visited
via `reversed(range(n))`. -/
def unload_array (num_idx : Nat) (array : List (List Bool)) : List LGate :=
  ((array.enum.reverse.map (fun p => entryBlocksRev num_idx p.1 p.2)).flatten).flatten

/-! Metrics of `metrics.py`. -/

/-- Accumulator of Python `max(counts, key=counts.get)`: the current best key
is replaced only on a strictly greater value, so ties keep the earlier
entry. -/
def pyMaxGo (bk : List Bool) (bv : Nat) : List (List Bool × Nat) → List Bool
  | [] => bk
  | (k, v) :: rest => if bv < v then pyMaxGo k v rest else pyMaxGo bk bv rest

/-- Python `max(counts, key=counts.get)` over a histogram given as an
association list in dictionary iteration order; `none` models the
`ValueError` on an empty mapping. -/
def pyMaxByVal : List (List Bool × Nat) → Option (List Bool)
  | [] => none
  | (k, v) :: rest => some (pyMaxGo k v rest)

/-- Estimated phase: `theta_est = (r / 2 ** p_count) * 2 * pi`. -/
noncomputable def theta_est (p_count r : Nat) : ℝ :=
  ((r : ℝ) / 2 ^ p_count) * 2 * Real.pi

/-- Estimated marked-state count:
`M_est = n_substr * (1 - sin(theta_est / 2) ** 2)`. -/
noncomputable def M_est (n_substr p_count r : Nat) : ℝ :=
  (n_substr : ℝ) * (1 - Real.sin (theta_est p_count r / 2) ^ 2)

/-- Source `estimate_marked_state_count`: mode of the counting histogram,
its base-2 integer value `r`, and the derived `(M_est, theta_est, r)`. -/
noncomputable def estimate_marked_state_count (counts : List (List Bool × Nat))
    (p_count n_substr : Nat) : Option (ℝ × ℝ × Nat) :=
  match pyMaxByVal counts with
  | none => none
  | some most_common =>
    some (M_est n_substr p_count (bitsToNat most_common),
      theta_est p_count (bitsToNat most_common), bitsToNat most_common)

/-- Total shot count of a histogram: `sum(counts.values())`. -/
def total_count (counts : List (List Bool × Nat)) : Nat :=
  (counts.map Prod.snd).sum

/-- Source `compute_statistics`: weighted mean and population variance of the
integer outcome values; `none` models the `ZeroDivisionError` when the shot
total is zero (in particular on an empty histogram). -/
def compute_statistics (counts : List (List Bool × Nat)) : Option (ℚ × ℚ) :=
  let total_shots := total_count counts
  if total_shots = 0 then none
  else
    let mean_r : ℚ :=
      (counts.map (fun kv => (bitsToNat kv.1 : ℚ) * kv.2)).sum / total_shots
    some (mean_r,
      (counts.map (fun kv => ((bitsToNat kv.1 : ℚ) - mean_r) ^ 2 * kv.2)).sum / total_shots)

/-! Derived quantities of the orchestrator `run_full_search`
(`adaptive_search.py`). -/

section
open Classical

/-- Python `round` (banker's rounding, half to even), as used by
`int(round(...))`. -/
noncomputable def pyRound (x : ℝ) : ℤ :=
  if Int.fract x < 1 / 2 then ⌊x⌋
  else if 1 / 2 < Int.fract x then ⌊x⌋ + 1
  else if Even ⌊x⌋ then ⌊x⌋ else ⌊x⌋ + 1

/-- Iteration derivation of `run_full_search`:
`0 if M_est < 1e-6 else int(round((pi / 4) * sqrt(n_substr / M_est)))`. -/
noncomputable def optimal_iterations (M : ℝ) (n_substr : Nat) : ℤ :=
  if M < 1e-6 then 0
  else pyRound (Real.pi / 4 * Real.sqrt ((n_substr : ℝ) / M))

/-- Checked variant of the iteration derivation, which reports (`none`) the
domain errors Python could raise on this expression: division by a zero
`M_est` and the square root of a negative number. -/
noncomputable def derive_iterations_checked (M : ℝ) (n_substr : Nat) : Option ℤ :=
  if M < 1e-6 then some 0
  else if M = 0 then none
  else if (n_substr : ℝ) / M < 0 then none
  else some (pyRound (Real.pi / 4 * Real.sqrt ((n_substr : ℝ) / M)))

end

/-- Valid index set of the validation stage: `{int(bs, 2) for bs in
valid_states}` (a list models the set; only membership is used). -/
def valid_indices (valid_states : List (List Bool)) : List Nat :=
  valid_states.map bitsToNat

/-- Valid shots of the validation stage: outcomes are bit-reversed before
integer conversion and membership testing. -/
def valid_shots (counts_search : List (List Bool × Nat)) (vi : List Nat) : Nat :=
  ((counts_search.filter
    (fun kv => decide (bitsToNat kv.1.reverse ∈ vi))).map Prod.snd).sum

/-- Validation stage of `run_full_search`:
`valid_fraction = valid_shots / total_shots if total_shots > 0 else 1.0`. -/
def valid_fraction (counts_search : List (List Bool × Nat))
    (valid_states : List (List Bool)) : ℚ :=
  let total_shots := total_count counts_search
  if 0 < total_shots then
    (valid_shots counts_search (valid_indices valid_states) : ℚ) / total_shots
  else 1

/-- Counting-histogram metric path of `run_full_search`: the estimator, the
iteration derivation and `compute_statistics` applied to `counts_count`;
a failure of either metric propagates out of the orchestrator. -/
noncomputable def run_full_search_counting_metrics
    (counts_count : List (List Bool × Nat)) (p_count n_substr : Nat) :
    Option (ℝ × ℝ × Nat × ℤ × ℚ × ℚ) :=
  match estimate_marked_state_count counts_count p_count n_substr with
  | none => none
  | some (M, th, r) =>
    match compute_statistics counts_count with
    | none => none
    | some s => some (M, th, r, optimal_iterations M n_substr, s.1, s.2)

/-! Input-text generator of `utils.py`. -/

/-- Candidate embedding positions: Python
`list(range(0, input_length - L + 1, L))` (empty when `input_length < L`,
because in Python the bound `input_length - L + 1` is then nonpositive). -/
def validPositions (input_length L : Nat) : List Nat :=
  if input_length < L then []
  else (List.range ((input_length - L) / L + 1)).map (· * L)

/-- Python slice assignment `l[a:b] = v` (for `0 ≤ a ≤ b`): both bounds are
clamped to the list length, so a slice beyond the end appends. -/
def pySliceAssign {α : Type} (l : List α) (a b : Nat) (v : List α) : List α :=
  let a1 := min a l.length
  let b1 := max a1 (min b l.length)
  l.take a1 ++ v ++ l.drop b1

/-- Source `generate_input_text_fixed`, with the outcome of
`random.sample(valid_positions, num_correct)` passed in as `sel` (the
function is randomized; `sel` ranges over the samples it can draw).
Failure (`none`) models the `IndexError` on an empty value list, the
`range` step error when the shared value length is zero, and the explicit
`ValueError` when more targets are requested than candidate positions. -/
def generate_input_text_fixed (input_length : Nat) (search_values : List (List Char))
    (sel : List Nat) : Option (List Char) :=
  match search_values with
  | [] => none
  | sv0 :: _ =>
    let L := sv0.length
    if L = 0 then none
    else
      let base_text :=
        ((List.replicate (input_length / L + 1) ['x', 'x', 'x']).flatten).take input_length
      let valid_positions := validPositions input_length L
      if valid_positions.length < search_values.length then none
      else some ((sel.zip search_values).foldl
        (fun b pv => pySliceAssign b pv.1 (pv.1 + L) pv.2) base_text)

/-- Samples `random.sample(valid_positions, num_correct)` can return:
pairwise distinct candidate positions, one per search value. -/
def SampleAdmissible (input_length L : Nat) (search_values : List (List Char))
    (sel : List Nat) : Prop :=
  sel.Nodup ∧ sel.length = search_values.length ∧
    ∀ p ∈ sel, p ∈ validPositions input_length L

/-! Theorems settling the specification claims. -/

/-- Helper: the fuel-driven ceiling logarithm agrees with `Nat.clog 2` once
the fuel covers the argument. -/
theorem ceilLog2Aux_eq_clog : ∀ fuel n : Nat, n ≤ fuel → ceilLog2Aux fuel n = Nat.clog 2 n := by
  intro fuel
  induction fuel with
  | zero =>
    intro n hn
    have : n = 0 := Nat.le_zero.mp hn
    subst this
    rw [Nat.clog_zero_right]
    rfl
  | succ fuel ih =>
    intro n hn
    by_cases h1 : n ≤ 1
    · rw [Nat.clog_of_right_le_one h1 2]
      simp [ceilLog2Aux, h1]
    · have h2 : 2 ≤ n := by omega
      have hrec : (n + 1) / 2 ≤ fuel := by omega
      rw [show ceilLog2Aux (fuel + 1) n = ceilLog2Aux fuel ((n + 1) / 2) + 1 from by
        simp [ceilLog2Aux, h1]]
      rw [ih _ hrec, Nat.clog_of_two_le (by norm_num) h2]
      congr 2

/-- Helper: `compute_n_qubits` is exactly the ceiling base-2 logarithm. -/
theorem compute_n_qubits_eq_clog (n : Nat) : compute_n_qubits n = Nat.clog 2 n :=
  ceilLog2Aux_eq_clog n n le_rfl

/-- Counterexample to claim C1: for two qubits and the single valid state
`"01"`, the gate sequence built by `grover_operator` differs from the
per-iteration body of `grover_basic_search_circuit` (which appends the
oracle and then the diffuser): `grover_operator` starts with the
diffuser's gates. -/
theorem c1_counterexample :
    grover_operator 2 [[false, true]] ≠ grover_basic_iteration 2 [[false, true]] := by
  decide

/-- Claim C1 (amended): for every `n_qubits` and list of valid states, the
Grover operator built by `grover_operator` is the diffuser's gate sequence
followed by the oracle's (the diffuser acts first), i.e. the per-iteration
body of `grover_basic_search_circuit` with its two halves swapped: that
body appends the oracle and then the diffuser. -/
theorem c1_grover_operator_order (n_qubits : Nat) (valid_states : List (List Bool))
    (iterations : Nat) :
    grover_operator n_qubits valid_states =
      diffuser n_qubits ++ create_hashed_oracle n_qubits valid_states ∧
    grover_basic_search_circuit n_qubits valid_states iterations =
      (List.range n_qubits).map QGate.h ++
        (List.replicate iterations
          (create_hashed_oracle n_qubits valid_states ++ diffuser n_qubits)).flatten ++
        (List.range n_qubits).map (fun q => QGate.measure q q) :=
  ⟨rfl, rfl⟩

/-- Claim C5: evaluation at the failing input.  `classical_preprocessing`
performs no substring-length validation: called with the mismatched-length
targets `"ab"` and `"c"`, it returns a result instead of failing. -/
theorem c5_no_length_validation :
    (classical_preprocessing [97, 98] [[97, 98], [99]] 8 1).isSome = true := by
  decide

/-- Counterexample to claim C6: `get_prime 0` is an index outside the claimed
bounds `1 ≤ index ≤ 9`, yet it does not fail: Python's negative list
indexing makes `primes[-1]` the last table entry, `47`. -/
theorem c6_counterexample : get_prime 0 = some 47 := by
  decide

/-- Claim C6 (amended): `get_prime` fails with an out-of-range error iff the
index exceeds `9` or is below `-8`; for `1 ≤ index ≤ 9` it returns the
index-th table entry, and for `-8 ≤ index ≤ 0` Python's negative indexing
makes it return the entry at 0-based position `index + 8` instead of
failing. -/
theorem c6_get_prime_range (i : Int) :
    (1 ≤ i → i ≤ 9 → get_prime i = primes.get? (i - 1).toNat) ∧
    (-8 ≤ i → i ≤ 0 → get_prime i = primes.get? (i + 8).toNat) ∧
    (9 < i → get_prime i = none) ∧
    (i < -8 → get_prime i = none) := by
  have hlen : (primes.length : Int) = 9 := by decide
  refine ⟨fun h1 h9 => ?_, fun h8 h0 => ?_, fun h9 => ?_, fun h8 => ?_⟩
  · have hge : (0 : Int) ≤ i - 1 := by omega
    simp only [get_prime, pyListGet, if_pos hge]
  · have hlt : ¬ (0 : Int) ≤ i - 1 := by omega
    have hge : (0 : Int) ≤ i - 1 + primes.length := by omega
    simp only [get_prime, pyListGet, if_neg hlt, if_pos hge]
    congr 1
    omega
  · have hge : (0 : Int) ≤ i - 1 := by omega
    simp only [get_prime, pyListGet, if_pos hge]
    refine List.get?_eq_none.mpr ?_
    have : (9 : Nat) ≤ (i - 1).toNat := by omega
    simpa [primes] using this
  · have hlt : ¬ (0 : Int) ≤ i - 1 := by omega
    have hlt2 : ¬ (0 : Int) ≤ i - 1 + primes.length := by omega
    simp only [get_prime, pyListGet, if_neg hlt, if_neg hlt2]

/-- Witness for the amended claim C6, at indexes `3`, `0`, `10` and `-9`:
an in-range index returns its table entry, index `0` wraps around to the
ninth entry, and indexes past either end fail. -/
theorem c6_get_prime_range_witness :
    get_prime 3 = primes.get? 2 ∧ get_prime 0 = primes.get? 8 ∧
      get_prime 10 = none ∧ get_prime (-9) = none :=
  ⟨(c6_get_prime_range 3).1 (by decide) (by decide),
   (c6_get_prime_range 0).2.1 (by decide) (by decide),
   (c6_get_prime_range 10).2.2.1 (by decide),
   (c6_get_prime_range (-9)).2.2.2 (by decide)⟩

/-- Claim C7: on every estimate the counting estimator can produce, the
iteration derivation of `run_full_search` raises no domain error (the
checked evaluation succeeds), and its value is `0` when `M_est < 1e-6` and
`round((pi / 4) * sqrt(n_substr / M_est))` otherwise. -/
theorem c7_iteration_derivation_total (p_count n_substr r : Nat) :
    derive_iterations_checked (M_est n_substr p_count r) n_substr =
      some (optimal_iterations (M_est n_substr p_count r) n_substr) ∧
    optimal_iterations (M_est n_substr p_count r) n_substr =
      (if M_est n_substr p_count r < 1e-6 then 0
       else pyRound (Real.pi / 4 * Real.sqrt ((n_substr : ℝ) / M_est n_substr p_count r))) := by
  constructor
  · by_cases h : M_est n_substr p_count r < 1e-6
    · simp [derive_iterations_checked, optimal_iterations, h]
    · have hpos : (0 : ℝ) < M_est n_substr p_count r :=
        lt_of_lt_of_le (by norm_num) (not_lt.mp h)
      have hne : M_est n_substr p_count r ≠ 0 := ne_of_gt hpos
      have hnn : ¬ ((n_substr : ℝ) / M_est n_substr p_count r < 0) :=
        not_lt.mpr (div_nonneg (Nat.cast_nonneg _) hpos.le)
      simp [derive_iterations_checked, optimal_iterations, h, hne, hnn]
  · rfl

/-- Helper: the filtered sum defining `valid_shots`, written entry by
entry. -/
theorem valid_shots_cons (kv : List Bool × Nat) (rest : List (List Bool × Nat))
    (vi : List Nat) :
    valid_shots (kv :: rest) vi =
      (if bitsToNat kv.1.reverse ∈ vi then kv.2 else 0) + valid_shots rest vi := by
  by_cases h : bitsToNat kv.1.reverse ∈ vi <;>
    simp [valid_shots, List.filter_cons, h]

/-- Helper: `valid_shots` as an indicator-weighted sum over the histogram. -/
theorem valid_shots_eq_indicator_sum (counts : List (List Bool × Nat)) (vi : List Nat) :
    (valid_shots counts vi : ℚ) =
      (counts.map (fun kv =>
        if bitsToNat kv.1.reverse ∈ vi then (kv.2 : ℚ) else 0)).sum := by
  induction counts with
  | nil => simp [valid_shots]
  | cons kv rest ih =>
    rw [List.map_cons, List.sum_cons, ← ih, valid_shots_cons]
    by_cases h : bitsToNat kv.1.reverse ∈ vi <;> simp [h]

/-- Claim C8: in the validation stage, every measured search outcome is
bit-reversed before integer conversion and membership testing against the
valid-index set, and `valid_fraction` is the valid-shot total divided by
the shot total, defined as `1` on an empty (zero-shot) histogram. -/
theorem c8_validation (counts_search : List (List Bool × Nat))
    (valid_states : List (List Bool)) :
    valid_fraction counts_search valid_states =
      if total_count counts_search = 0 then 1
      else (counts_search.map (fun kv =>
          if bitsToNat kv.1.reverse ∈ valid_indices valid_states
          then (kv.2 : ℚ) else 0)).sum / total_count counts_search := by
  by_cases h : total_count counts_search = 0
  · simp [valid_fraction, h]
  · have hpos : 0 < total_count counts_search := Nat.pos_of_ne_zero h
    simp [valid_fraction, h, hpos, valid_shots_eq_indicator_sum]

/-- Claim C10: on an empty counting histogram, both
`estimate_marked_state_count` (maximum of an empty mapping) and
`compute_statistics` (division by a zero shot total) fail, and the
counting-metric path of `run_full_search` propagates the failure; the
empty-histogram policy `valid_fraction = 1` exists only on the search
path. -/
theorem c10_empty_counting_histogram_fails (p_count n_substr : Nat)
    (valid_states : List (List Bool)) :
    estimate_marked_state_count [] p_count n_substr = none ∧
    compute_statistics [] = none ∧
    run_full_search_counting_metrics [] p_count n_substr = none ∧
    valid_fraction [] valid_states = 1 :=
  ⟨rfl, rfl, rfl, rfl⟩

/-- Helper: the `max` accumulator keeps its current key when no later entry
carries a strictly greater value. -/
theorem pyMaxGo_stay (bk : List Bool) (bv : Nat) (l : List (List Bool × Nat))
    (h : ∀ kv ∈ l, kv.2 ≤ bv) : pyMaxGo bk bv l = bk := by
  induction l generalizing bk bv with
  | nil => rfl
  | cons kv rest ih =>
    obtain ⟨k, v⟩ := kv
    have h1 : v ≤ bv := h (k, v) (List.mem_cons_self _ _)
    simp only [pyMaxGo, if_neg (not_lt.mpr h1)]
    exact ih bk bv (fun kv hkv => h kv (List.mem_cons_of_mem _ hkv))

/-- Helper: the `max` accumulator lands on the unique entry of strictly
maximal value once the running value is below it. -/
theorem pyMaxGo_find (bs : List Bool) (m : Nat) :
    ∀ (l : List (List Bool × Nat)) (bk : List Bool) (bv : Nat), bv < m → (bs, m) ∈ l →
      (∀ kv ∈ l, kv ≠ (bs, m) → kv.2 < m) → pyMaxGo bk bv l = bs := by
  intro l
  induction l with
  | nil => intro bk bv _ hmem _; cases hmem
  | cons kv rest ih =>
    intro bk bv hbv hmem hmax
    obtain ⟨k, v⟩ := kv
    by_cases heq : ((k, v) : List Bool × Nat) = (bs, m)
    · injection heq with hk hv
      rw [hk, hv]
      simp only [pyMaxGo, if_pos hbv]
      refine pyMaxGo_stay _ _ _ (fun kv2 hkv => ?_)
      by_cases h2 : kv2 = (bs, m)
      · subst h2; exact le_rfl
      · exact le_of_lt (hmax kv2 (List.mem_cons_of_mem _ hkv) h2)
    · have hv : v < m := hmax (k, v) (List.mem_cons_self _ _) heq
      have hmem2 : (bs, m) ∈ rest := by
        rcases List.mem_cons.mp hmem with h2 | h2
        · exact absurd h2.symm heq
        · exact h2
      have hmax2 : ∀ kv2 ∈ rest, kv2 ≠ (bs, m) → kv2.2 < m :=
        fun kv2 hkv => hmax kv2 (List.mem_cons_of_mem _ hkv)
      by_cases hlt : bv < v
      · simp only [pyMaxGo, if_pos hlt]
        exact ih k v hv hmem2 hmax2
      · simp only [pyMaxGo, if_neg hlt]
        exact ih bk bv hbv hmem2 hmax2

/-- Helper: Python `max(counts, key=counts.get)` returns the unique entry of
strictly maximal count. -/
theorem pyMaxByVal_unique_max (counts : List (List Bool × Nat)) (bs : List Bool) (m : Nat)
    (hmem : (bs, m) ∈ counts)
    (hmax : ∀ kv ∈ counts, kv ≠ (bs, m) → kv.2 < m) :
    pyMaxByVal counts = some bs := by
  cases counts with
  | nil => cases hmem
  | cons kv rest =>
    obtain ⟨k, v⟩ := kv
    simp only [pyMaxByVal]
    by_cases heq : ((k, v) : List Bool × Nat) = (bs, m)
    · injection heq with hk hv
      rw [hk, hv]
      refine congrArg some (pyMaxGo_stay _ _ _ (fun kv2 hkv => ?_))
      by_cases h2 : kv2 = (bs, m)
      · subst h2; exact le_rfl
      · exact le_of_lt (hmax kv2 (List.mem_cons_of_mem _ hkv) h2)
    · have hv : v < m := hmax (k, v) (List.mem_cons_self _ _) heq
      have hmem2 : (bs, m) ∈ rest := by
        rcases List.mem_cons.mp hmem with h2 | h2
        · exact absurd h2.symm heq
        · exact h2
      exact congrArg some (pyMaxGo_find bs m rest k v hv hmem2
        (fun kv2 hkv => hmax kv2 (List.mem_cons_of_mem _ hkv)))

/-- Claim C4: when the counting histogram has a unique most-frequent outcome,
the estimator returns its base-2 value `r`, the phase
`theta_est = (r / 2 ^ p_count) * 2 * pi`, and
`M_est = n_substr * (1 - sin(theta_est / 2) ^ 2)`, which equals the closed
form `n_substr * (1 - sin(pi * r / 2 ^ p_count) ^ 2)` exactly. -/
theorem c4_estimate_closed_form (counts : List (List Bool × Nat)) (p_count n_substr : Nat)
    (bs : List Bool) (m : Nat) (hmem : (bs, m) ∈ counts)
    (hmax : ∀ kv ∈ counts, kv ≠ (bs, m) → kv.2 < m) :
    estimate_marked_state_count counts p_count n_substr =
      some (M_est n_substr p_count (bitsToNat bs), theta_est p_count (bitsToNat bs),
        bitsToNat bs) ∧
    theta_est p_count (bitsToNat bs) = ((bitsToNat bs : ℝ) / 2 ^ p_count) * 2 * Real.pi ∧
    M_est n_substr p_count (bitsToNat bs) =
      (n_substr : ℝ) * (1 - Real.sin (Real.pi * (bitsToNat bs : ℝ) / 2 ^ p_count) ^ 2) := by
  refine ⟨?_, rfl, ?_⟩
  · unfold estimate_marked_state_count
    rw [pyMaxByVal_unique_max counts bs m hmem hmax]
  · have harg : theta_est p_count (bitsToNat bs) / 2 =
        Real.pi * (bitsToNat bs : ℝ) / 2 ^ p_count := by
      unfold theta_est; ring
    unfold M_est
    rw [harg]

/-- Witness for claim C4, on the histogram `{'10': 5, '01': 3}` with
`p_count = 4` and `n_substr = 22`: the mode `'10'` is unique, `r = 2`, and
the estimate takes the closed-form value. -/
theorem c4_estimate_closed_form_witness :
    estimate_marked_state_count [([true, false], 5), ([false, true], 3)] 4 22 =
      some (M_est 22 4 (bitsToNat [true, false]), theta_est 4 (bitsToNat [true, false]),
        bitsToNat [true, false]) ∧
    theta_est 4 (bitsToNat [true, false]) =
      ((bitsToNat [true, false] : ℝ) / 2 ^ 4) * 2 * Real.pi ∧
    M_est 22 4 (bitsToNat [true, false]) =
      ((22 : Nat) : ℝ) *
        (1 - Real.sin (Real.pi * (bitsToNat [true, false] : ℝ) / 2 ^ 4) ^ 2) :=
  c4_estimate_closed_form [([true, false], 5), ([false, true], 3)] 4 22 [true, false] 5
    (by decide) (by decide)

/-- Helper: length of the `valid_states` list built by the preprocessing
loop, as a sum over window positions of the number of digest-matching
targets. -/
theorem validStatesOf_length (p hash_bits : Nat) (text : List Nat) (svs : List (List Nat))
    (L N n_qubits : Nat) :
    (validStatesOf p hash_bits text svs L N n_qubits).length =
      ((List.range N).map (fun i => svs.countP (fun sv =>
        make_hash_with p (window text L i) hash_bits =
          make_hash_with p sv hash_bits))).sum := by
  unfold validStatesOf
  rw [List.length_flatten, List.map_map]
  congr 1
  refine List.map_eq_map_iff.mpr (fun i _ => ?_)
  simp [Function.comp, List.countP_eq_length_filter]

/-- Counterexample to claim C2: with text `"abab"` and targets `"ab"` and
`"bb"`, whose 8-bit digests collide (both are `130`), the preprocessing
loop appends two entries per matching window position: `valid_states` has
length `4`, while the cardinality the claim asserts is `2`. -/
theorem c2_counterexample :
    (classical_preprocessing [97, 98, 97, 98] [[97, 98], [98, 98]] 8 1).map
        (fun out => out.1.length) = some 4 ∧
    matchingPositionCount 17 8 [97, 98, 97, 98] [[97, 98], [98, 98]] 2 3 = 2 := by
  exact ⟨by decide, by decide⟩

/-- Claim C2 (amended): whenever `classical_preprocessing` returns, the
length of `valid_states` is the sum, over window positions, of the number
of targets whose digest equals that window's digest — one entry per
matching target, so a window matching several hash-colliding targets
contributes several (duplicate) entries. -/
theorem c2_valid_states_length (input_text : List Nat) (search_values : List (List Nat))
    (hash_bits : Nat) (prime_index : Int) (p : Nat)
    (out : List (List Bool) × Int × Nat × List (List Bool) × List (List Bool))
    (hp : get_prime prime_index = some p)
    (h : classical_preprocessing input_text search_values hash_bits prime_index = some out) :
    out.1.length =
      ((List.range (((input_text.length : Int) -
          (search_values.headD []).length + 1).toNat)).map
        (fun i => search_values.countP (fun sv =>
          make_hash_with p (window input_text (search_values.headD []).length i) hash_bits =
            make_hash_with p sv hash_bits))).sum := by
  cases search_values with
  | nil => simp [classical_preprocessing] at h
  | cons sv0 rest =>
    simp only [classical_preprocessing] at h
    rw [hp] at h
    split at h
    · exact absurd h (by simp)
    · rw [Option.some_inj] at h
      subst h
      simpa [List.headD] using validStatesOf_length p hash_bits input_text (sv0 :: rest)
        sv0.length (((input_text.length : Int) - sv0.length + 1).toNat)
        (compute_n_qubits (((input_text.length : Int) - sv0.length + 1).toNat))

set_option synthInstance.maxSize 256 in
/-- Witness for the amended claim C2, on text `"a"` with the single target
`"a"`: one window, one match, `valid_states` of length one. -/
theorem c2_valid_states_length_witness :
    (([[false]], 1, 0, [[false, true, true, true, false, false, false, true]],
        [[false, true, true, true, false, false, false, true]]) :
      List (List Bool) × Int × Nat × List (List Bool) × List (List Bool)).1.length =
      ((List.range (((([97] : List Nat).length : Int) -
          (([[97]] : List (List Nat)).headD []).length + 1).toNat)).map
        (fun i => ([[97]] : List (List Nat)).countP (fun sv =>
          make_hash_with 17 (window [97] (([[97]] : List (List Nat)).headD []).length i) 8 =
            make_hash_with 17 sv 8))).sum :=
  c2_valid_states_length [97] [[97]] 8 1 17 _ (by decide) (by decide)

/-- Helper: executing a concatenation of gate lists is sequential
execution. -/
theorem execLGates_append (num_idx : Nat) (g1 g2 : List LGate) (s : LState) :
    execLGates num_idx (g1 ++ g2) s = execLGates num_idx g2 (execLGates num_idx g1 s) :=
  List.foldl_append _ _ g1 g2

/-- Helper: X gates on the index register leave the value register alone. -/
theorem execLGates_xList_val (num_idx : Nat) (ks : List Nat) (s : LState) :
    (execLGates num_idx (ks.map LGate.xIdx) s).val = s.val := by
  induction ks generalizing s with
  | nil => rfl
  | cons k t ih =>
    rw [List.map_cons]
    show (execLGates num_idx (t.map LGate.xIdx) (applyLGate num_idx s (.xIdx k))).val = s.val
    rw [ih]
    rfl

/-- Helper: a duplicate-free run of index X gates flips exactly the listed
qubits. -/
theorem execLGates_xList_idx (num_idx : Nat) (ks : List Nat) (s : LState)
    (hnd : ks.Nodup) :
    (execLGates num_idx (ks.map LGate.xIdx) s).idx = flipOn ks s.idx := by
  induction ks generalizing s with
  | nil => funext k; simp [execLGates, flipOn]
  | cons k0 t ih =>
    have hk0 : k0 ∉ t := (List.nodup_cons.mp hnd).1
    have hnd2 : t.Nodup := (List.nodup_cons.mp hnd).2
    rw [List.map_cons]
    show (execLGates num_idx (t.map LGate.xIdx) (applyLGate num_idx s (.xIdx k0))).idx =
      flipOn (k0 :: t) s.idx
    rw [ih _ hnd2]
    funext k
    by_cases hk : k ∈ t
    · have hne : k ≠ k0 := fun h => hk0 (h ▸ hk)
      simp [flipOn, applyLGate, hk, hne, Function.update_noteq hne, List.mem_cons]
    · by_cases hk0e : k = k0
      · subst hk0e
        simp [flipOn, applyLGate, hk, Function.update_same, List.mem_cons]
      · simp [flipOn, applyLGate, hk, hk0e, Function.update_noteq hk0e, List.mem_cons]

/-- Helper: flipping the same qubit set twice is the identity. -/
theorem flipOn_flipOn (S : List Nat) (f : Nat → Bool) : flipOn S (flipOn S f) = f := by
  funext k
  by_cases h : k ∈ S <;> simp [flipOn, h]

/-- Helper: the qubit positions flipped around one loader MCX are pairwise
distinct (they are positions into the index bit pattern). -/
theorem idxFlips_nodup (num_idx i : Nat) : (idxFlips num_idx i).Nodup := by
  have h1 : ((pyBinFormat num_idx i).enum.filter (fun p => !p.2)).Sublist
      (pyBinFormat num_idx i).enum := List.filter_sublist _
  have h2 := h1.map Prod.fst
  rw [List.enum_map_fst] at h2
  exact h2.nodup (List.nodup_range _)

/-- Helper: one loader block keeps the index register fixed and flips value
qubit `v` exactly when the index pattern matches. -/
theorem execLGates_loadBlock (num_idx i v : Nat) (s : LState) :
    execLGates num_idx (loadBlock num_idx i v) s =
      { idx := s.idx,
        val := if (List.range num_idx).all (flipOn (idxFlips num_idx i) s.idx)
               then Function.update s.val v (!s.val v) else s.val } := by
  have hnd := idxFlips_nodup num_idx i
  unfold loadBlock
  rw [execLGates_append, execLGates_append]
  have h1i : (execLGates num_idx ((idxFlips num_idx i).map LGate.xIdx) s).idx =
      flipOn (idxFlips num_idx i) s.idx := execLGates_xList_idx _ _ _ hnd
  have h1v : (execLGates num_idx ((idxFlips num_idx i).map LGate.xIdx) s).val = s.val :=
    execLGates_xList_val _ _ _
  set t1 := execLGates num_idx ((idxFlips num_idx i).map LGate.xIdx) s with ht1
  have hmcx : execLGates num_idx [LGate.mcxVal v] t1 =
      { idx := t1.idx,
        val := if (List.range num_idx).all t1.idx
               then Function.update t1.val v (!t1.val v) else t1.val } := by
    show applyLGate num_idx t1 (.mcxVal v) = _
    by_cases h : (List.range num_idx).all t1.idx
    · simp [applyLGate, h]
    · simp [applyLGate, h]
  rw [hmcx]
  refine LState.ext ?_ ?_
  · rw [execLGates_xList_idx _ _ _ hnd]
    show flipOn (idxFlips num_idx i) t1.idx = s.idx
    rw [h1i, flipOn_flipOn]
  · rw [execLGates_xList_val]
    show (if (List.range num_idx).all t1.idx
          then Function.update t1.val v (!t1.val v) else t1.val) = _
    rw [h1i, h1v]

/-- Helper: each loader block is its own inverse on basis states. -/
theorem execLGates_loadBlock_involutive (num_idx i v : Nat) (s : LState) :
    execLGates num_idx (loadBlock num_idx i v)
      (execLGates num_idx (loadBlock num_idx i v) s) = s := by
  rw [execLGates_loadBlock, execLGates_loadBlock]
  by_cases h : (List.range num_idx).all (flipOn (idxFlips num_idx i) s.idx)
  · simp only [h, if_true]
    refine LState.ext rfl ?_
    show Function.update (Function.update s.val v (!s.val v)) v
        (!(Function.update s.val v (!s.val v) v)) = s.val
    rw [Function.update_same, Function.update_idem, Bool.not_not, Function.update_eq_self]
  · simp [h]

/-- Helper: a block list followed by its block-level reversal cancels, as
soon as each block is an involution. -/
theorem execLGates_flatten_reverse_cancel (num_idx : Nat) :
    ∀ bs : List (List LGate),
      (∀ b ∈ bs, ∀ s, execLGates num_idx b (execLGates num_idx b s) = s) →
      ∀ s, execLGates num_idx (bs.flatten ++ bs.reverse.flatten) s = s := by
  intro bs
  induction bs with
  | nil => intro _ s; rfl
  | cons b rest ih =>
    intro hinv s
    have hb : ∀ s2, execLGates num_idx b (execLGates num_idx b s2) = s2 :=
      hinv b (List.mem_cons_self _ _)
    have hrest : ∀ b2 ∈ rest, ∀ s2, execLGates num_idx b2 (execLGates num_idx b2 s2) = s2 :=
      fun b2 h2 => hinv b2 (List.mem_cons_of_mem _ h2)
    have hmid := ih hrest (execLGates num_idx b s)
    rw [execLGates_append] at hmid
    rw [List.flatten_cons, List.reverse_cons, List.flatten_append,
      execLGates_append, execLGates_append, execLGates_append]
    simp only [List.flatten_cons, List.flatten_nil, List.append_nil]
    rw [hmid]
    exact hb s

/-- Helper: every block emitted by `load_array` is a loader block. -/
theorem mem_loadBlocks (num_idx : Nat) (array : List (List Bool)) (b : List LGate)
    (hb : b ∈ loadBlocks num_idx array) : ∃ i v, b = loadBlock num_idx i v := by
  unfold loadBlocks at hb
  rw [List.mem_flatten] at hb
  obtain ⟨bl, hbl, hbbl⟩ := hb
  rw [List.mem_map] at hbl
  obtain ⟨p, _, rfl⟩ := hbl
  unfold entryBlocks at hbbl
  rw [List.mem_filterMap] at hbbl
  obtain ⟨q, _, hq⟩ := hbbl
  split at hq
  · exact ⟨p.1, q.1, (Option.some_inj.mp hq).symm⟩
  · cases hq

/-- Helper: the per-entry blocks of `unload_array` are those of `load_array`
in reverse order. -/
theorem entryBlocksRev_eq_reverse (num_idx i : Nat) (a : List Bool) :
    entryBlocksRev num_idx i a = (entryBlocks num_idx i a).reverse := by
  unfold entryBlocksRev entryBlocks
  exact List.filterMap_reverse _ _

/-- Helper: `unload_array` emits exactly the blocks of `load_array` in
reverse block order (each block itself emitted forwards). -/
theorem unload_array_eq_reverse_blocks (num_idx : Nat) (array : List (List Bool)) :
    unload_array num_idx array = (loadBlocks num_idx array).reverse.flatten := by
  unfold unload_array loadBlocks
  congr 1
  have he : (fun p : Nat × List Bool => entryBlocksRev num_idx p.1 p.2) =
      (fun p : Nat × List Bool => (entryBlocks num_idx p.1 p.2).reverse) := by
    funext p
    exact entryBlocksRev_eq_reverse _ _ _
  rw [he, List.reverse_flatten, List.map_map, ← List.map_reverse]
  rfl

/-- Helper: `load_array` immediately followed by `unload_array` is the
identity on every basis state of the index and value registers. -/
theorem load_unload_exec_id (num_idx : Nat) (array : List (List Bool)) (s : LState) :
    execLGates num_idx (load_array num_idx array ++ unload_array num_idx array) s = s := by
  rw [unload_array_eq_reverse_blocks]
  show execLGates num_idx
    ((loadBlocks num_idx array).flatten ++ (loadBlocks num_idx array).reverse.flatten) s = s
  refine execLGates_flatten_reverse_cancel num_idx (loadBlocks num_idx array) ?_ s
  intro b hb s2
  obtain ⟨i, v, rfl⟩ := mem_loadBlocks num_idx array b hb
  exact execLGates_loadBlock_involutive num_idx i v s2

/-- Counterexample to claim C3: for a two-qubit index register and the
one-entry array `["1"]`, `unload_array` is not the reverse of
`load_array`'s gate sequence: the X gates inside the single block are
emitted forwards, not reversed. -/
theorem c3_counterexample :
    unload_array 2 [[true]] ≠ (load_array 2 [[true]]).reverse := by
  decide

/-- Claim C3 (amended): for every array and register sizes, `unload_array`
emits the blocks of `load_array` in reverse block order, each block itself
emitted forwards (not the gate-by-gate reversal); since every block is
self-inverse on basis states, `load_array` immediately followed by
`unload_array` acts as the identity, and in particular leaves a value
register that started in the all-zero state in the all-zero state. -/
theorem c3_load_unload_roundtrip (num_idx : Nat) (array : List (List Bool)) (s : LState) :
    execLGates num_idx (load_array num_idx array ++ unload_array num_idx array) s = s ∧
    load_array num_idx array = (loadBlocks num_idx array).flatten ∧
    unload_array num_idx array = (loadBlocks num_idx array).reverse.flatten ∧
    ∀ v, (execLGates num_idx (load_array num_idx array ++ unload_array num_idx array)
      { idx := s.idx, val := fun _ => false }).val v = false := by
  refine ⟨load_unload_exec_id num_idx array s, rfl,
    unload_array_eq_reverse_blocks num_idx array, fun v => ?_⟩
  rw [load_unload_exec_id num_idx array]

/-- Helper: a within-bounds slice assignment of matching length preserves
the list length. -/
theorem pySliceAssign_length {α : Type} (l : List α) (a L : Nat) (v : List α)
    (hb : a + L ≤ l.length) (hv : v.length = L) :
    (pySliceAssign l a (a + L) v).length = l.length := by
  simp only [pySliceAssign, List.length_append, List.length_take, List.length_drop]
  omega

/-- Helper: a slice assignment leaves the entries before the slice alone. -/
theorem pySliceAssign_get_lt {α : Type} (l : List α) (a L : Nat) (v : List α)
    (hb : a + L ≤ l.length) (j : Nat) (hj : j < a) :
    (pySliceAssign l a (a + L) v).get? j = l.get? j := by
  simp only [pySliceAssign]
  rw [List.append_assoc]
  have h1 : j < (l.take (min a l.length)).length := by
    rw [List.length_take]; omega
  rw [List.get?_append h1, List.get?_take (by omega : j < min a l.length)]

/-- Helper: a within-bounds slice assignment of matching length leaves the
entries after the slice alone. -/
theorem pySliceAssign_get_ge {α : Type} (l : List α) (a L : Nat) (v : List α)
    (hb : a + L ≤ l.length) (hv : v.length = L) (j : Nat) (hj : a + L ≤ j) :
    (pySliceAssign l a (a + L) v).get? j = l.get? j := by
  simp only [pySliceAssign]
  have hmin : min a l.length = a := by omega
  have hminb : min (a + L) l.length = a + L := by omega
  rw [hmin, hminb]
  have hmax : max a (a + L) = a + L := by omega
  rw [hmax, List.append_assoc]
  have h1 : (l.take a).length ≤ j := by rw [List.length_take]; omega
  rw [List.get?_append_right h1]
  have h2 : v.length ≤ j - (l.take a).length := by rw [List.length_take]; omega
  rw [List.get?_append_right h2, List.get?_drop]
  congr 1
  rw [List.length_take]
  omega

/-- Helper: a within-bounds slice assignment of matching length puts the new
entries at the slice positions. -/
theorem pySliceAssign_get_mid {α : Type} (l : List α) (a L : Nat) (v : List α)
    (hb : a + L ≤ l.length) (hv : v.length = L) (j : Nat) (hj : j < L) :
    (pySliceAssign l a (a + L) v).get? (a + j) = v.get? j := by
  simp only [pySliceAssign]
  have hmin : min a l.length = a := by omega
  have hminb : min (a + L) l.length = a + L := by omega
  rw [hmin, hminb]
  have hmax : max a (a + L) = a + L := by omega
  rw [hmax, List.append_assoc]
  have h1 : (l.take a).length ≤ a + j := by rw [List.length_take]; omega
  rw [List.get?_append_right h1]
  have h2 : a + j - (l.take a).length < v.length := by rw [List.length_take]; omega
  rw [List.get?_append h2]
  congr 1
  rw [List.length_take]
  omega

/-- Helper: the embedding fold of `generate_input_text_fixed` preserves the
base length when every write fits. -/
theorem embed_foldl_length {α : Type} (L : Nat) :
    ∀ (pairs : List (Nat × List α)) (b : List α),
      (∀ pv ∈ pairs, pv.1 + L ≤ b.length ∧ pv.2.length = L) →
      (pairs.foldl (fun b2 pv => pySliceAssign b2 pv.1 (pv.1 + L) pv.2) b).length =
        b.length := by
  intro pairs
  induction pairs with
  | nil => intro b _; rfl
  | cons hd tl ih =>
    intro b hcond
    have h1 := hcond hd (List.mem_cons_self _ _)
    have hw : (pySliceAssign b hd.1 (hd.1 + L) hd.2).length = b.length :=
      pySliceAssign_length b hd.1 L hd.2 h1.1 h1.2
    have hcond2 : ∀ pv ∈ tl,
        pv.1 + L ≤ (pySliceAssign b hd.1 (hd.1 + L) hd.2).length ∧ pv.2.length = L := by
      intro pv hpv
      rw [hw]
      exact hcond pv (List.mem_cons_of_mem _ hpv)
    rw [List.foldl_cons, ih _ hcond2, hw]

/-- Helper: a position disjoint from every write keeps its entry across the
embedding fold. -/
theorem embed_foldl_get_outside {α : Type} (L : Nat) :
    ∀ (pairs : List (Nat × List α)) (b : List α) (j : Nat),
      (∀ pv ∈ pairs, pv.1 + L ≤ b.length ∧ pv.2.length = L) →
      (∀ pv ∈ pairs, j < pv.1 ∨ pv.1 + L ≤ j) →
      (pairs.foldl (fun b2 pv => pySliceAssign b2 pv.1 (pv.1 + L) pv.2) b).get? j =
        b.get? j := by
  intro pairs
  induction pairs with
  | nil => intro b j _ _; rfl
  | cons hd tl ih =>
    intro b j hcond hdisj
    have h1 := hcond hd (List.mem_cons_self _ _)
    have hw : (pySliceAssign b hd.1 (hd.1 + L) hd.2).length = b.length :=
      pySliceAssign_length b hd.1 L hd.2 h1.1 h1.2
    have hcond2 : ∀ pv ∈ tl,
        pv.1 + L ≤ (pySliceAssign b hd.1 (hd.1 + L) hd.2).length ∧ pv.2.length = L := by
      intro pv hpv
      rw [hw]
      exact hcond pv (List.mem_cons_of_mem _ hpv)
    have hdisj2 : ∀ pv ∈ tl, j < pv.1 ∨ pv.1 + L ≤ j :=
      fun pv hpv => hdisj pv (List.mem_cons_of_mem _ hpv)
    rw [List.foldl_cons, ih _ j hcond2 hdisj2]
    rcases hdisj hd (List.mem_cons_self _ _) with h | h
    · exact pySliceAssign_get_lt b hd.1 L hd.2 h1.1 j h
    · exact pySliceAssign_get_ge b hd.1 L hd.2 h1.1 h1.2 j h

/-- Helper: with pairwise-disjoint writes, each written value survives to
the end of the embedding fold. -/
theorem embed_foldl_get_written {α : Type} (L : Nat) :
    ∀ (pairs : List (Nat × List α)) (b : List α),
      (∀ pv ∈ pairs, pv.1 + L ≤ b.length ∧ pv.2.length = L) →
      pairs.Pairwise (fun pv qv => pv.1 + L ≤ qv.1 ∨ qv.1 + L ≤ pv.1) →
      ∀ pv ∈ pairs, ∀ j, j < L →
        (pairs.foldl (fun b2 pv2 => pySliceAssign b2 pv2.1 (pv2.1 + L) pv2.2) b).get?
            (pv.1 + j) = pv.2.get? j := by
  intro pairs
  induction pairs with
  | nil => intro b _ _ pv hpv; cases hpv
  | cons hd tl ih =>
    intro b hcond hpw pv hpv j hj
    have h1 := hcond hd (List.mem_cons_self _ _)
    have hw : (pySliceAssign b hd.1 (hd.1 + L) hd.2).length = b.length :=
      pySliceAssign_length b hd.1 L hd.2 h1.1 h1.2
    have hcond2 : ∀ qv ∈ tl,
        qv.1 + L ≤ (pySliceAssign b hd.1 (hd.1 + L) hd.2).length ∧ qv.2.length = L := by
      intro qv hqv
      rw [hw]
      exact hcond qv (List.mem_cons_of_mem _ hqv)
    rcases List.mem_cons.mp hpv with rfl | hmem
    · rw [List.foldl_cons]
      have hdisj : ∀ qv ∈ tl, pv.1 + j < qv.1 ∨ qv.1 + L ≤ pv.1 + j := by
        intro qv hqv
        rcases (List.pairwise_cons.mp hpw).1 qv hqv with h | h
        · left; omega
        · right; omega
      rw [embed_foldl_get_outside L tl _ (pv.1 + j) hcond2 hdisj]
      exact pySliceAssign_get_mid b pv.1 L pv.2 h1.1 h1.2 j hj
    · rw [List.foldl_cons]
      exact ih _ hcond2 (List.pairwise_cons.mp hpw).2 pv hmem j hj

/-- Helper: extracting a slice from point values. -/
theorem slice_eq_of_get? {α : Type} (t v : List α) (p L : Nat) (_hlen : p + L ≤ t.length)
    (hv : v.length = L) (h : ∀ j, j < L → t.get? (p + j) = v.get? j) :
    (t.drop p).take L = v := by
  apply List.ext_get?
  intro j
  by_cases hj : j < L
  · rw [List.get?_take hj, List.get?_drop]
    exact h j hj
  · have h1 : ((t.drop p).take L).get? j = none := by
      refine List.get?_eq_none.mpr ?_
      rw [List.length_take, List.length_drop]
      omega
    have h2 : v.get? j = none := List.get?_eq_none.mpr (by omega)
    rw [h1, h2]

/-- Helper: every candidate embedding position leaves room for one value. -/
theorem validPositions_le (n L p : Nat) (hp : p ∈ validPositions n L) : p + L ≤ n := by
  unfold validPositions at hp
  split at hp
  · cases hp
  · rename_i hnL
    rw [List.mem_map] at hp
    obtain ⟨k, hk, rfl⟩ := hp
    rw [List.mem_range] at hk
    have hk2 : k ≤ (n - L) / L := by omega
    rcases Nat.eq_zero_or_pos L with hL | hL
    · subst hL
      simp
    · have := (Nat.le_div_iff_mul_le hL).mp hk2
      omega

/-- Helper: two distinct candidate positions are at least one value length
apart (they are distinct multiples of the value length). -/
theorem validPositions_disjoint (n L p q : Nat) (hp : p ∈ validPositions n L)
    (hq : q ∈ validPositions n L) (hne : p ≠ q) : p + L ≤ q ∨ q + L ≤ p := by
  unfold validPositions at hp hq
  split at hp
  · cases hp
  · split at hq
    · cases hq
    · rw [List.mem_map] at hp hq
      obtain ⟨k1, _, rfl⟩ := hp
      obtain ⟨k2, _, rfl⟩ := hq
      have hkne : k1 ≠ k2 := fun h => hne (by rw [h])
      rcases Nat.lt_or_ge k1 k2 with h | h
      · left
        have h2 : (k1 + 1) * L ≤ k2 * L := Nat.mul_le_mul_right L (by omega)
        calc k1 * L + L = (k1 + 1) * L := by ring
          _ ≤ k2 * L := h2
      · have h3 : k2 < k1 := by omega
        right
        have h2 : (k2 + 1) * L ≤ k1 * L := Nat.mul_le_mul_right L (by omega)
        calc k2 * L + L = (k2 + 1) * L := by ring
          _ ≤ k1 * L := h2

/-- Helper: a pairwise relation on positions transfers to the zipped
position-value pairs. -/
theorem pairwise_zip_fst {β : Type} (R : Nat → Nat → Prop) :
    ∀ (l : List Nat) (l2 : List β), l.Pairwise R →
      (l.zip l2).Pairwise (fun pv qv => R pv.1 qv.1) := by
  intro l
  induction l with
  | nil => intro l2 _; simp
  | cons a t ih =>
    intro l2 hpw
    cases l2 with
    | nil => simp
    | cons b t2 =>
      rw [List.zip_cons_cons]
      refine List.pairwise_cons.mpr ⟨?_, ih t2 (List.pairwise_cons.mp hpw).2⟩
      intro qv hqv
      exact (List.pairwise_cons.mp hpw).1 qv.1 (List.of_mem_zip hqv).1

/-- Counterexample to claim C9: the function is not deterministic and does
not always return `input_length` characters.  With `input_length = 25` and
one 10-character value, the admissible sample `[10]` yields a 19-character
text (the `"xxx"` filler only covers `3 * (25 / 10 + 1) = 9` characters and
the slice assignment at position 10 merely appends); with
`input_length = 6` and the value `"ab"`, the admissible samples `[0]` and
`[2]` yield different texts, so the embedding positions are not a function
of the arguments. -/
theorem c9_counterexample :
    (generate_input_text_fixed 25 [List.replicate 10 'a'] [10]).map List.length =
        some 19 ∧
    SampleAdmissible 25 10 [List.replicate 10 'a'] [10] ∧
    generate_input_text_fixed 6 [['a', 'b']] [0] ≠
      generate_input_text_fixed 6 [['a', 'b']] [2] ∧
    SampleAdmissible 6 2 [['a', 'b']] [0] ∧ SampleAdmissible 6 2 [['a', 'b']] [2] :=
  ⟨by decide, ⟨by decide, by decide, by decide⟩, by decide,
    ⟨by decide, by decide, by decide⟩, ⟨by decide, by decide, by decide⟩⟩

/-- Claim C9 (amended): for equal-length search values with
`1 ≤ L ≤ 3` and any admissible random sample of positions,
`generate_input_text_fixed` fails (with the configuration `ValueError`) iff
more targets are requested than there are candidate slots (the evenly
spaced multiples of `L` fitting in the text); otherwise it returns a text
of exactly `input_length` characters with each search value embedded at
its sampled slot.  The positions are drawn by `random.sample`, so they are
not deterministic across calls, and for `L > 3` the `"xxx"` filler no
longer guarantees the output length. -/
theorem c9_generate_embedding (input_length : Nat) (search_values : List (List Char))
    (sel : List Nat) (L : Nat) (hne : search_values ≠ [])
    (hlen : ∀ sv ∈ search_values, sv.length = L) (hL1 : 1 ≤ L) (hL3 : L ≤ 3)
    (hadm : SampleAdmissible input_length L search_values sel) :
    (generate_input_text_fixed input_length search_values sel = none ↔
      (validPositions input_length L).length < search_values.length) ∧
    ∀ t, generate_input_text_fixed input_length search_values sel = some t →
      t.length = input_length ∧
      ∀ pv ∈ sel.zip search_values, (t.drop pv.1).take L = pv.2 := by
  obtain ⟨hnodup, hlensel, hmemsel⟩ := hadm
  cases search_values with
  | nil => exact absurd rfl hne
  | cons sv0 rest =>
    have hL0 : sv0.length = L := hlen sv0 (List.mem_cons_self _ _)
    simp only [generate_input_text_fixed, hL0, if_neg (by omega : ¬ L = 0)]
    have hbase :
        (((List.replicate (input_length / L + 1) ['x', 'x', 'x']).flatten).take
          input_length).length = input_length := by
      rw [List.length_take, List.length_flatten, List.map_replicate]
      have hdm := Nat.div_add_mod input_length L
      have hmod : input_length % L < L := Nat.mod_lt _ (by omega)
      have hmul : L * (input_length / L) ≤ 3 * (input_length / L) :=
        Nat.mul_le_mul_right _ hL3
      have hsum : (List.replicate (input_length / L + 1) (3 : Nat)).sum =
          (input_length / L + 1) * 3 := List.sum_const_nat _ _
      rw [show (List.length ['x', 'x', 'x']) = 3 from rfl] at *
      rw [hsum]
      have : input_length ≤ (input_length / L + 1) * 3 := by nlinarith
      omega
    by_cases hcnt : (validPositions input_length L).length < (sv0 :: rest).length
    · refine ⟨?_, fun t ht => ?_⟩
      · rw [if_pos hcnt]
        simpa using hcnt
      · rw [if_pos hcnt] at ht
        cases ht
    · have hcond : ∀ pv ∈ sel.zip (sv0 :: rest),
          pv.1 + L ≤ (((List.replicate (input_length / L + 1) ['x', 'x', 'x']).flatten).take
            input_length).length ∧ pv.2.length = L := by
        intro pv hpv
        refine ⟨?_, hlen pv.2 (List.of_mem_zip hpv).2⟩
        rw [hbase]
        exact validPositions_le input_length L pv.1 (hmemsel pv.1 (List.of_mem_zip hpv).1)
      have hpw : (sel.zip (sv0 :: rest)).Pairwise
          (fun pv qv => pv.1 + L ≤ qv.1 ∨ qv.1 + L ≤ pv.1) := by
        refine pairwise_zip_fst (fun p q => p + L ≤ q ∨ q + L ≤ p) sel (sv0 :: rest) ?_
        refine List.Pairwise.imp_of_mem ?_ hnodup
        intro p q hp hq hne2
        exact validPositions_disjoint input_length L p q (hmemsel p hp) (hmemsel q hq) hne2
      simp only [if_neg hcnt]
      refine ⟨⟨fun h => absurd h (by simp), fun h => absurd h hcnt⟩, fun t ht => ?_⟩
      rw [Option.some_inj] at ht
      subst ht
      constructor
      · rw [embed_foldl_length L _ _ hcond, hbase]
      · intro pv hpv
        refine slice_eq_of_get? _ _ _ _ ?_ (hlen pv.2 (List.of_mem_zip hpv).2) ?_
        · rw [embed_foldl_length L _ _ hcond, hbase]
          exact validPositions_le input_length L pv.1 (hmemsel pv.1 (List.of_mem_zip hpv).1)
        · intro j hj
          exact embed_foldl_get_written L _ _ hcond hpw pv hpv j hj

/-- Witness for the amended claim C9: `input_length = 6`, single value
`"ab"`, admissible sample `[2]`. -/
theorem c9_generate_embedding_witness :
    (generate_input_text_fixed 6 [['a', 'b']] [2] = none ↔
      (validPositions 6 2).length < ([['a', 'b']] : List (List Char)).length) ∧
    ∀ t, generate_input_text_fixed 6 [['a', 'b']] [2] = some t →
      t.length = 6 ∧
      ∀ pv ∈ ([2] : List Nat).zip ([['a', 'b']] : List (List Char)),
        (t.drop pv.1).take 2 = pv.2 :=
  c9_generate_embedding 6 [['a', 'b']] [2] 2 (by decide)
    (by decide) (by decide) (by decide) ⟨by decide, by decide, by decide⟩

end AdaptiveHash
